import Mathlib

/-!
Shallow embedding of the `qk` lambda-calculus front end
(`src/lexer.rs`, `src/ast.rs`, `src/parser.rs`, `src/pool_lambda.rs`,
`src/compiler.rs`), together with theorems settling the specification
claims about it.

Sources are modelled as lists of Unicode characters; all offsets and
lengths are byte counts (UTF-8), as in the Rust code.  Loops of the Rust
code are modelled with an explicit fuel parameter (`none` = fuel ran out);
entry points supply fuel that covers every terminating run.
-/

/-- `miette::SourceSpan`: a half-open byte range `[offset, offset+len)`. -/
structure Span where
  offset : Nat
  len : Nat
deriving DecidableEq, Repr

/-- `lexer::over`: the span covering from `l` to the end of `r`. -/
def over (l r : Span) : Span :=
  ⟨l.offset, r.offset + r.len - l.offset⟩

/-- `lexer::Meta<T>`: an item together with its source span (`at`). -/
structure Meta (α : Type) where
  item : α
  at_ : Span
deriving DecidableEq, Repr

instance instDecEqExcept {ε α : Type} [DecidableEq ε] [DecidableEq α] :
    DecidableEq (Except ε α)
  | .error e, .error f =>
    if h : e = f then .isTrue (by rw [h]) else .isFalse (by intro hc; cases hc; exact h rfl)
  | .error _, .ok _ => .isFalse (by intro hc; cases hc)
  | .ok _, .error _ => .isFalse (by intro hc; cases hc)
  | .ok a, .ok b =>
    if h : a = b then .isTrue (by rw [h]) else .isFalse (by intro hc; cases hc; exact h rfl)

/-- UTF-8 byte length of a character list. -/
def utf8Len : List Char → Nat
  | [] => 0
  | c :: cs => c.utf8Size + utf8Len cs

/-- Byte-based slicing of the source, as Rust's `&src[off..off+len]`:
the characters whose byte ranges lie inside `[sp.offset, sp.offset+sp.len)`. -/
def sliceBytes (src : List Char) (sp : Span) : List Char :=
  go src 0
where
  go : List Char → Nat → List Char
    | [], _ => []
    | c :: cs, p =>
      if sp.offset ≤ p ∧ p + c.utf8Size ≤ sp.offset + sp.len then
        c :: go cs (p + c.utf8Size)
      else
        go cs (p + c.utf8Size)

/-- Modelled from the spec: `Meta::from_code`, called by `Pool::compile_node`
and `Compiler::compile` but not defined under `src/`; per the spec, "the
identifier text is recovered by slicing the source with the node's span". -/
def Meta.from_code (m : Meta α) (src : List Char) : List Char :=
  sliceBytes src m.at_

/-- `lexer::TkTy`: the token kinds. -/
inductive TkTy where
  | Function
  | Abstraction
  | LParen
  | RParen
  | Variable
deriving DecidableEq, Repr

/-- `lexer::Token = Meta<TkTy>`. -/
abbrev Token := Meta TkTy

/-- `lexer::Error` (the `Other` default variant is never produced by
`TkTy::processed` and is omitted). -/
inductive LexError where
  | InvalidCharSeq (at_ : Span)
deriving DecidableEq, Repr

/-- Whitespace skipped by the lexer: `[ \t\n\f]`. -/
def isWs (c : Char) : Bool :=
  c = ' ' || c = '\t' || c = '\n' || c = '\x0c'

/-- ASCII letters, the `[a-zA-Z]` class of the `Variable` rule. -/
def isAsciiLetter (c : Char) : Bool :=
  ('a' ≤ c && c ≤ 'z') || ('A' ≤ c && c ≤ 'Z')

/-- Length of the maximal leading run of ASCII letters. -/
def letterRun : List Char → Nat
  | [] => 0
  | c :: cs => if isAsciiLetter c then letterRun cs + 1 else 0

/-- Length of the maximal leading run of whitespace. -/
def wsRun : List Char → Nat
  | [] => 0
  | c :: cs => if isWs c then wsRun cs + 1 else 0

/-- One maximal-munch step of the `logos`-generated lexer: the token kind
matched at the head of `cs` and the number of characters it consumes.
The literals are those of `src/lexer.rs`: `\`, `"Î»"` (the file's line 41
holds the bytes `C3 8E C2 BB`, i.e. the two characters U+00CE U+00BB — not
the single character `λ`, whose UTF-8 bytes are `CE BB`), `fn`, `=>`, `.`,
`(`, `)`, and the greedy `[a-zA-Z]+` rule; a `#[token]` literal beats the
regex at equal length. -/
def matchToken (cs : List Char) : Option (TkTy × Nat) :=
  let v := letterRun cs
  match cs with
  | [] => none
  | c :: rest =>
    if v = 2 ∧ cs.take 2 = ['f', 'n'] then some (.Function, 2)
    else if 0 < v then some (.Variable, v)
    else if c = '\\' then some (.Function, 1)
    else if c = 'Î' ∧ rest.take 1 = ['»'] then some (.Function, 2)
    else if c = '=' ∧ rest.take 1 = ['>'] then some (.Abstraction, 2)
    else if c = '.' then some (.Abstraction, 1)
    else if c = '(' then some (.LParen, 1)
    else if c = ')' then some (.RParen, 1)
    else none

/-- The lexer driver (`TkTy::processed`): skip whitespace, emit the
longest-matching token with its byte span, and on an unmatched character
emit `InvalidCharSeq` over that character and continue.  Every step
consumes at least one character, so fuel `cs.length` suffices. -/
def lexGo : Nat → List Char → Nat → List (Except LexError Token)
  | 0, _, _ => []
  | _ + 1, [], _ => []
  | fuel + 1, c :: rest, pos =>
    if isWs c then
      let n := wsRun (c :: rest)
      lexGo fuel ((c :: rest).drop n) (pos + utf8Len ((c :: rest).take n))
    else
      match matchToken (c :: rest) with
      | some (tk, n) =>
        .ok ⟨tk, ⟨pos, utf8Len ((c :: rest).take n)⟩⟩ ::
          lexGo fuel ((c :: rest).drop n) (pos + utf8Len ((c :: rest).take n))
      | none =>
        .error (.InvalidCharSeq ⟨pos, c.utf8Size⟩) :: lexGo fuel rest (pos + c.utf8Size)

/-- `TkTy::processed` applied to a whole source string. -/
def lex (s : String) : List (Except LexError Token) :=
  lexGo s.toList.length s.toList 0

/-- The REPL keeps only the successful tokens before parsing
(`main.rs`, `Repl::expression`). -/
def lexOks (l : List (Except LexError Token)) : List Token :=
  l.filterMap (fun r => match r with | .ok t => some t | .error _ => none)

example : lex "\\ x . x" =
    [.ok ⟨.Function, ⟨0, 1⟩⟩, .ok ⟨.Variable, ⟨2, 1⟩⟩,
     .ok ⟨.Abstraction, ⟨4, 1⟩⟩, .ok ⟨.Variable, ⟨6, 1⟩⟩] := by decide

example : lex "λ" = [.error (.InvalidCharSeq ⟨0, 2⟩)] := by decide

example : lex "Î»" = [.ok ⟨.Function, ⟨0, 4⟩⟩] := by decide

example : lex "fn x => x" =
    [.ok ⟨.Function, ⟨0, 2⟩⟩, .ok ⟨.Variable, ⟨3, 1⟩⟩,
     .ok ⟨.Abstraction, ⟨5, 2⟩⟩, .ok ⟨.Variable, ⟨8, 1⟩⟩] := by decide

/-- `ast::Ast`: the AST node variants; `Node = Meta<Ast>` with the node's
covering span. -/
inductive Ast where
  | Var
  | Abs (v : Span) (inner : Meta Ast)
  | App (l r : Meta Ast)

/-- `ast::Node = Box<Meta<Ast>>`. -/
abbrev Node := Meta Ast

/-- Number of AST nodes (used to state "one pool term per node"). -/
def astCount : Ast → Nat
  | .Var => 1
  | .Abs _ ⟨b, _⟩ => astCount b + 1
  | .App ⟨l, _⟩ ⟨r, _⟩ => astCount l + astCount r + 1

/-- Number of nodes of a spanned AST node. -/
def nodeCount (n : Node) : Nat :=
  astCount n.item

/-- `parser::Error`. -/
inductive PError where
  | UnexpectedEof (at_ : Span)
  | UnexpectedToken (exp tk : TkTy) (at_ : Span)
deriving DecidableEq, Repr

/-- The span used by `Parser::peek` for `UnexpectedEof`: the span of the
last token of the vector, or `(0,0)` if there are none. -/
def lastSpan (ts : List Token) : Span :=
  (ts.getLast?.map Meta.at_).getD ⟨0, 0⟩

/-- `Parser::peek`/`Parser::current`: the token at the cursor, or
`UnexpectedEof` at `lastSpan`. -/
def peekTk (ts : List Token) (i : Nat) : Except PError Token :=
  match ts.get? i with
  | some t => .ok t
  | none => .error (.UnexpectedEof (lastSpan ts))

/-- `Parser::syntax`: require the token at the cursor to have kind `tk`;
on success return the advanced cursor, otherwise `UnexpectedToken`
(the cursor does not move on failure). -/
def expectTk (ts : List Token) (i : Nat) (tk : TkTy) : (Except PError Unit) × Nat :=
  match peekTk ts i with
  | .error e => (.error e, i)
  | .ok t =>
    if t.item = tk then (.ok (), i + 1)
    else (.error (.UnexpectedToken tk t.item t.at_), i)

/-- The parameter-collection loop of `Parser::parse_abs`
(`while self.current()?.item == TkTy::Variable`): collects the spans of
the leading `Variable` tokens; `current()?` propagates `UnexpectedEof`
from inside the loop condition.  One token per iteration, so fuel
`ts.length + 1` suffices. -/
def collectParams : Nat → List Token → Nat → Option (Except PError (List Span × Nat))
  | 0, _, _ => none
  | fuel + 1, ts, i =>
    match peekTk ts i with
    | .error e => some (.error e)
    | .ok t =>
      if t.item = .Variable then
        match collectParams fuel ts (i + 1) with
        | none => none
        | some (.error e) => some (.error e)
        | some (.ok (ps, j)) => some (.ok (t.at_ :: ps, j))
      else
        some (.ok ([], i))

/-- Which parser routine is running: `parse_atom`, `parse_abs`,
`parse_app`, or `parse_app`'s atom-extension loop (with its accumulator).
The four mutually recursive routines of `parser.rs` are modelled as one
fuel-indexed function dispatching on this tag so that evaluation is
kernel-reducible. -/
inductive PCall where
  | atom
  | abs
  | app
  | appLoop (l : Node)

/-- Result of a parsing routine: `none` = out of fuel; otherwise the
`Result<Node>` together with the cursor position afterwards (the Rust
parser mutates `self.idx`, which is observable even on error paths). -/
abbrev PRes := Option ((Except PError Node) × Nat)

/-- The recursive core of `Parser`: `parse_atom` / `parse_abs` /
`parse_app` / the `while let Ok(r) = self.parse_atom()` loop. -/
def parseStep : Nat → PCall → List Token → Nat → PRes
  | 0, _, _, _ => none
  | fuel + 1, .atom, ts, i =>
    -- `Parser::parse_atom`
    match peekTk ts i with
    | .error e => some (.error e, i)
    | .ok t =>
      if t.item = .Function then
        parseStep fuel .abs ts i
      else if t.item = .LParen then
        match parseStep fuel .app ts (i + 1) with
        | none => none
        | some (.error e, j) => some (.error e, j)
        | some (.ok a, j) =>
          match expectTk ts j .RParen with
          | (.error e, j') => some (.error e, j')
          | (.ok _, j') => some (.ok a, j')
      else
        match expectTk ts i .Variable with
        | (.error e, j) => some (.error e, j)
        | (.ok _, j) => some (.ok ⟨.Var, t.at_⟩, j)
  | fuel + 1, .abs, ts, i =>
    -- `Parser::parse_abs`: `FN VAR+ ABS app`, desugared to curried unary
    -- `Abs` nodes from the last parameter inwards.
    match expectTk ts i .Function with
    | (.error e, j) => some (.error e, j)
    | (.ok _, j) =>
      match collectParams (ts.length + 1) ts j with
      | none => none
      | some (.error e) => some (.error e, j)
      | some (.ok (params, j1)) =>
        -- `if params.is_empty() { self.syntax(TkTy::Variable)?; }`
        match (if params.isEmpty then expectTk ts j1 .Variable else (.ok (), j1)) with
        | (.error e, j2) => some (.error e, j2)
        | (.ok _, j2) =>
          match expectTk ts j2 .Abstraction with
          | (.error e, j3) => some (.error e, j3)
          | (.ok _, j3) =>
            match parseStep fuel .app ts j3 with
            | none => none
            | some (.error e, j4) => some (.error e, j4)
            | some (.ok body, j4) =>
              let result := params.foldr
                (fun sp acc => ⟨Ast.Abs sp acc, over sp acc.at_⟩) body
              some (.ok result, j4)
  | fuel + 1, .app, ts, i =>
    -- `Parser::parse_app`: one atom, then extend while further atoms parse.
    match parseStep fuel .atom ts i with
    | none => none
    | some (.error e, j) => some (.error e, j)
    | some (.ok l, j) => parseStep fuel (.appLoop l) ts j
  | fuel + 1, .appLoop l, ts, i =>
    -- a failed atom attempt ends the application (its error is swallowed,
    -- but the cursor stays wherever the failed attempt left it)
    match parseStep fuel .atom ts i with
    | none => none
    | some (.error _, j) => some (.ok l, j)
    | some (.ok r, j) =>
      parseStep fuel (.appLoop ⟨Ast.App l r, over l.at_ r.at_⟩) ts j

/-- `Parser::parse_atom`. -/
def parseAtom (fuel : Nat) (ts : List Token) (i : Nat) : PRes :=
  parseStep fuel .atom ts i

/-- `Parser::parse_abs`. -/
def parseAbs (fuel : Nat) (ts : List Token) (i : Nat) : PRes :=
  parseStep fuel .abs ts i

/-- `Parser::parse_app`. -/
def parseApp (fuel : Nat) (ts : List Token) (i : Nat) : PRes :=
  parseStep fuel .app ts i

/-- Fuel that covers every run of the parser on `ts`. -/
def parseFuel (ts : List Token) : Nat :=
  3 * ts.length + 8

/-- `Parser::parse` (and `main.rs`'s direct `parse_app` call): parse an
`app` from the start of the token vector. -/
def parseTop (ts : List Token) : Option (Except PError Node) :=
  (parseApp (parseFuel ts) ts 0).map Prod.fst
def Ast.decEq : (a b : Ast) → Decidable (a = b)
  | .Var, .Var => isTrue rfl
  | .Var, .Abs _ _ => isFalse (fun h => by cases h)
  | .Var, .App _ _ => isFalse (fun h => by cases h)
  | .Abs _ _, .Var => isFalse (fun h => by cases h)
  | .Abs _ _, .App _ _ => isFalse (fun h => by cases h)
  | .App _ _, .Var => isFalse (fun h => by cases h)
  | .App _ _, .Abs _ _ => isFalse (fun h => by cases h)
  | .Abs v1 ⟨i1, s1⟩, .Abs v2 ⟨i2, s2⟩ =>
    match instDecidableEqSpan v1 v2 with
    | isFalse h => isFalse (fun hh => by cases hh; exact h rfl)
    | isTrue h1 =>
      match Ast.decEq i1 i2 with
      | isFalse h => isFalse (fun hh => by cases hh; exact h rfl)
      | isTrue h2 =>
        match instDecidableEqSpan s1 s2 with
        | isFalse h => isFalse (fun hh => by cases hh; exact h rfl)
        | isTrue h3 => isTrue (by rw [h1, h2, h3])
  | .App ⟨li1, ls1⟩ ⟨ri1, rs1⟩, .App ⟨li2, ls2⟩ ⟨ri2, rs2⟩ =>
    match Ast.decEq li1 li2 with
    | isFalse h => isFalse (fun hh => by cases hh; exact h rfl)
    | isTrue h1 =>
      match instDecidableEqSpan ls1 ls2 with
      | isFalse h => isFalse (fun hh => by cases hh; exact h rfl)
      | isTrue h2 =>
        match Ast.decEq ri1 ri2 with
        | isFalse h => isFalse (fun hh => by cases hh; exact h rfl)
        | isTrue h3 =>
          match instDecidableEqSpan rs1 rs2 with
          | isFalse h => isFalse (fun hh => by cases hh; exact h rfl)
          | isTrue h4 => isTrue (by rw [h1, h2, h3, h4])

instance : DecidableEq Ast := Ast.decEq

example : parseTop [] = some (.error (.UnexpectedEof ⟨0, 0⟩)) := by decide

example :
    parseTop (lexOks (lex "\\ x . x")) =
      some (.ok ⟨.Abs ⟨2, 1⟩ ⟨.Var, ⟨6, 1⟩⟩, ⟨2, 5⟩⟩) := by
  decide

/-- `pool_lambda::Term`.  `TermIdx` and `OutterIdx` are `usize` newtypes
in the source; both are modelled as `Nat`. -/
inductive Term where
  | Var (k : Nat)
  | Abs (inner : Nat)
  | App (l r : Nat)
deriving DecidableEq, Repr

/-- `pool_lambda::Error`. -/
inductive PoolError where
  | UndeclaredVariable (at_ : Span)
deriving DecidableEq, Repr

namespace Pool

/-- The recursive worker of `Pool::compile_node`, recursing on the `Ast`
item with the node's span passed alongside (`ast.at`).  `scopes` is the
binder-name stack in `Vec` order (innermost binder last); `pool` is the
term vector built so far.  Returns the new pool and the returned
`TermIdx`, which the source computes as `self.pool.len() - 1` after the
match. -/
def compileItem (src : List Char) :
    List (List Char) → Ast → Span → List Term → Except PoolError (List Term × Nat)
  | scopes, .Var, sp, pool =>
    -- `let var_name = ast.from_code(src); scopes.iter().rev().enumerate()
    --    .find(|(_, s)| **s == var_name)`
    let var_name := sliceBytes src sp
    match scopes.reverse.findIdx? (fun s => s = var_name) with
    | some id => .ok (pool ++ [Term.Var id], (pool ++ [Term.Var id]).length - 1)
    | none => .error (.UndeclaredVariable sp)
  | scopes, .Abs v ⟨inner, innerSp⟩, _, pool =>
    -- the `Abs` placeholder is pushed *before* the body is compiled and
    -- its `inner` field is patched afterwards
    let term_idx := pool.length
    let pool1 := pool ++ [Term.Abs 0]
    let var_name := sliceBytes src v
    match compileItem src (scopes ++ [var_name]) inner innerSp pool1 with
    | .error e => .error e
    | .ok (pool2, body) =>
      let pool3 :=
        match pool2.get? term_idx with
        | some (Term.Abs _) => pool2.set term_idx (Term.Abs body)
        | _ => pool2
      .ok (pool3, pool3.length - 1)
  | scopes, .App ⟨l, lSp⟩ ⟨r, rSp⟩, _, pool =>
    match compileItem src scopes l lSp pool with
    | .error e => .error e
    | .ok (pool1, li) =>
      match compileItem src scopes r rSp pool1 with
      | .error e => .error e
      | .ok (pool2, ri) =>
        .ok (pool2 ++ [Term.App li ri], (pool2 ++ [Term.App li ri]).length - 1)

/-- `Pool::compile_node`. -/
def compileNode (scopes : List (List Char)) (ast : Node) (src : List Char)
    (pool : List Term) : Except PoolError (List Term × Nat) :=
  compileItem src scopes ast.item ast.at_ pool

/-- `Pool::compile`: start from an empty pool and an empty scope stack;
the returned `TermIdx` of the root call is discarded. -/
def compile (ast : Node) (src : List Char) : Except PoolError (List Term) :=
  (compileNode [] ast src []).map Prod.fst

/-- One term of the `Display` rendering of `Pool`: `"ν {}"`, `"{} ⋅ {}"`
or `"λ {}"` (note the spaces in the format strings of
`src/pool_lambda.rs`). -/
def fmtTerm : Term → String
  | .Var k => "ν " ++ Nat.repr k
  | .App l r => Nat.repr l ++ " ⋅ " ++ Nat.repr r
  | .Abs inner => "λ " ++ Nat.repr inner

/-- The `Display` impl of `Pool`: `"[ "`, the terms joined by `", "`, then
`"]"`. -/
def display (pool : List Term) : String :=
  "[ " ++ String.intercalate ", " (pool.map fmtTerm) ++ "]"

end Pool

/-- The REPL pipeline on one input line (`Repl::expression`): lex, keep
the successful tokens, `parse_app`, then `Pool::compile` against the
original source; `none` when the parser already failed (or, unreachably,
on fuel exhaustion). -/
def lowerStr (s : String) : Option (Except PoolError (List Term)) :=
  match parseTop (lexOks (lex s)) with
  | some (.ok ast) => some (Pool.compile ast s.toList)
  | _ => none

example : lowerStr "\\ x . x" = some (.ok [.Abs 1, .Var 0]) := by decide

example : lowerStr "\\ x . \\ y . x" = some (.ok [.Abs 2, .Abs 2, .Var 1]) := by decide

example : lowerStr "\\ x . \\ x . x" = some (.ok [.Abs 2, .Abs 2, .Var 0]) := by decide

example : lowerStr "x" = some (.error (.UndeclaredVariable ⟨0, 1⟩)) := by decide

example : Pool.display [.Abs 1, .Var 0] = "[ λ 1, ν 0]" := by decide

/-- `lib.rs`'s `Body` (with `Term = Box<Body>`), the output of the
alternative lowering `Compiler::compile` in `src/compiler.rs`. -/
inductive Body where
  | Var (v : Nat)
  | App (l r : Body)
  | Abs (v : Nat) (b : Body)
deriving DecidableEq, Repr

namespace Compiler

/-- The state of `compiler::Compiler`: the `definitions` map from
identifier text to `VarId` (modelled as an association list keyed by the
name) and the fresh-id counter. -/
structure State where
  definitions : List (List Char × Nat)
  var_counter : Nat
deriving DecidableEq, Repr

/-- `HashMap::get` on the modelled `definitions`. -/
def getDef (st : State) (name : List Char) : Option Nat :=
  (st.definitions.find? (fun p => p.1 = name)).map Prod.snd

/-- Replace the value bound to `name` (which must be present). -/
def setDef (defs : List (List Char × Nat)) (name : List Char) (v : Nat) :
    List (List Char × Nat) :=
  defs.map (fun p => if p.1 = name then (name, v) else p)

/-- Remove the binding of `name`. -/
def removeDef (defs : List (List Char × Nat)) (name : List Char) :
    List (List Char × Nat) :=
  defs.filter (fun p => ¬ p.1 = name)

/-- `ScopeGuard::new`: allocate a fresh `VarId` (`get_new_var`), bind the
name to it, and remember the shadowed id if there was one. -/
def scopeEnter (st : State) (name : List Char) : State × Nat × Option Nat :=
  let var_id := st.var_counter
  match getDef st name with
  | some old =>
    (⟨setDef st.definitions name var_id, st.var_counter + 1⟩, var_id, some old)
  | none =>
    (⟨st.definitions ++ [(name, var_id)], st.var_counter + 1⟩, var_id, none)

/-- `ScopeGuard`'s `Drop`: restore the shadowed id or remove the
binding. -/
def scopeExit (st : State) (name : List Char) (shadowed : Option Nat) : State :=
  match shadowed with
  | some old => ⟨setDef st.definitions name old, st.var_counter⟩
  | none => ⟨removeDef st.definitions name, st.var_counter⟩

/-- The recursive worker of `Compiler::compile`, recursing on the `Ast`
item with the node's span alongside.  `none` models the panic of
`.expect("variable not defined")` on an unbound variable. -/
def compileItem (src : List Char) :
    State → Ast → Span → Option (Body × State)
  | st, .Var, sp =>
    match getDef st (sliceBytes src sp) with
    | some v => some (.Var v, st)
    | none => none
  | st, .Abs v ⟨inner, innerSp⟩, _ =>
    let var_text := sliceBytes src v
    let (st1, var_id, shadowed) := scopeEnter st var_text
    match compileItem src st1 inner innerSp with
    | none => none
    | some (b, st2) => some (.Abs var_id b, scopeExit st2 var_text shadowed)
  | st, .App ⟨l, lSp⟩ ⟨r, rSp⟩, _ =>
    match compileItem src st l lSp with
    | none => none
    | some (lb, st1) =>
      match compileItem src st1 r rSp with
      | none => none
      | some (rb, st2) => some (.App lb rb, st2)

/-- `Compiler::compile` starting from `Compiler::default()`. -/
def compile (ast : Node) (src : List Char) : Option (Body × State) :=
  compileItem src ⟨[], 0⟩ ast.item ast.at_

end Compiler

example :
    Compiler.compile ⟨.Var, ⟨0, 1⟩⟩ "x".toList = none := by decide

example :
    Compiler.compile ⟨.Abs ⟨2, 1⟩ ⟨.Var, ⟨6, 1⟩⟩, ⟨2, 5⟩⟩ "\\ x . x".toList =
      some (.Abs 0 (.Var 0), ⟨[], 1⟩) := by decide

/-! ### Helper lemmas about the pool lowering -/

theorem astCount_pos (a : Ast) : 0 < astCount a := by
  cases a with
  | Var => simp [astCount]
  | Abs v b => cases b; simp [astCount]
  | App l r => cases l; cases r; simp [astCount]

/-- Characterization of `List.findIdx?` (with its start-index
accumulator): a hit is the first position satisfying the predicate. -/
theorem findIdx?_first {α : Type} (p : α → Bool) :
    ∀ (l : List α) (s n : Nat), List.findIdx? p l s = some n →
      s ≤ n ∧ n - s < l.length ∧
      (∃ a, l.get? (n - s) = some a ∧ p a = true) ∧
      (∀ j, j < n - s → ∀ b, l.get? j = some b → p b = false)
  | [], s, n => by simp [List.findIdx?]
  | x :: xs, s, n => by
    intro h
    rw [List.findIdx?_cons] at h
    split at h
    · rename_i hpx
      injection h with h
      subst h
      refine ⟨le_refl _, by simp, ⟨x, by simp, hpx⟩, ?_⟩
      intro j hj
      omega
    · rename_i hpx
      obtain ⟨h1, h2, ⟨a, ha, hpa⟩, hfirst⟩ := findIdx?_first p xs (s + 1) n h
      refine ⟨by omega, by simp; omega, ⟨a, ?_, hpa⟩, ?_⟩
      · have : n - s = (n - (s + 1)) + 1 := by omega
        rw [this]
        simpa using ha
      · intro j hj b hb
        match j with
        | 0 =>
          simp at hb
          subst hb
          simpa using hpx
        | j' + 1 =>
          have : j' < n - (s + 1) := by omega
          exact hfirst j' this b (by simpa using hb)

/-- Structure of a successful `compile_node` run: it appends exactly one
term per AST node to the pool it was given and returns
`pool.len() - 1`, i.e. the index of the *last* term it appended. -/
theorem Pool.compileItem_spec (src : List Char) :
    ∀ (a : Ast) (sp : Span) (scopes : List (List Char)) (pool pool' : List Term) (idx : Nat),
      Pool.compileItem src scopes a sp pool = .ok (pool', idx) →
      ∃ ts, pool' = pool ++ ts ∧ ts.length = astCount a ∧
        idx = pool.length + ts.length - 1
  | .Var, sp, scopes, pool, pool', idx => by
    intro h
    simp only [Pool.compileItem] at h
    split at h
    · rename_i id heq
      injection h with h
      injection h with h1 h2
      refine ⟨[Term.Var id], h1.symm, by simp [astCount], ?_⟩
      rw [← h2]
      simp
    · cases h
  | .Abs v ⟨b, bsp⟩, sp, scopes, pool, pool', idx => by
    intro h
    simp only [Pool.compileItem] at h
    split at h
    · cases h
    · rename_i pool2 body heq
      obtain ⟨tsb, hext, hlen, hbody⟩ := Pool.compileItem_spec src b bsp _ _ _ _ heq
      have hget : pool2.get? pool.length = some (Term.Abs 0) := by
        rw [hext, List.append_assoc, List.get?_append_right (le_refl _)]
        simp
      split at h
      · injection h with h
        injection h with h1 h2
        refine ⟨Term.Abs body :: tsb, ?_, by simp [astCount, hlen], ?_⟩
        · rw [← h1, hext, List.append_assoc, List.set_append_right _ _ (le_refl _)]
          simp
        · rw [← h2]
          simp [hext]
      · rename_i hne
        rw [hget] at hne
        exact absurd rfl (hne 0)
  | .App ⟨l, lsp⟩ ⟨r, rsp⟩, sp, scopes, pool, pool', idx => by
    intro h
    simp only [Pool.compileItem] at h
    split at h
    · cases h
    · rename_i pool1 li heql
      split at h
      · cases h
      · rename_i pool2 ri heqr
        obtain ⟨tsl, hextl, hlenl, hli⟩ := Pool.compileItem_spec src l lsp _ _ _ _ heql
        obtain ⟨tsr, hextr, hlenr, hri⟩ := Pool.compileItem_spec src r rsp _ _ _ _ heqr
        injection h with h
        injection h with h1 h2
        refine ⟨tsl ++ tsr ++ [Term.App li ri], ?_, ?_, ?_⟩
        · rw [← h1, hextr, hextl]
          simp
        · simp [astCount, hlenl, hlenr]
          omega
        · rw [← h2]
          simp [hextr, hextl]

/-- Index discipline of the terms emitted by `compile_node` into the new
region of the pool: an `App` references strictly smaller positions
(children are compiled before it), while an `Abs` references a strictly
*larger* position (its placeholder is pushed before its body and patched
to the body's returned index). -/
theorem Pool.compileItem_links (src : List Char) :
    ∀ (a : Ast) (sp : Span) (scopes : List (List Char)) (pool pool' : List Term) (idx : Nat),
      Pool.compileItem src scopes a sp pool = .ok (pool', idx) →
      ∀ i, pool.length ≤ i →
        (∀ l r, pool'.get? i = some (.App l r) → l < i ∧ r < i) ∧
        (∀ inr, pool'.get? i = some (.Abs inr) → i < inr ∧ inr < pool'.length)
  | .Var, sp, scopes, pool, pool', idx => by
    intro h i hi
    simp only [Pool.compileItem] at h
    split at h
    · rename_i id heq
      injection h with h
      injection h with h1 h2
      have hcases : pool'.get? i = some (Term.Var id) ∨ pool'.get? i = none := by
        rcases Nat.lt_or_ge i (pool ++ [Term.Var id]).length with hlt | hge
        · have : i = pool.length := by simp at hlt; omega
          subst this
          left
          rw [← h1, List.get?_concat_length]
        · right
          rw [← h1]
          exact List.get?_len_le hge
      constructor
      · intro l r hg
        rcases hcases with hc | hc <;> rw [hc] at hg <;> cases hg
      · intro inr hg
        rcases hcases with hc | hc <;> rw [hc] at hg <;> cases hg
    · cases h
  | .Abs v ⟨b, bsp⟩, sp, scopes, pool, pool', idx => by
    intro h i hi
    simp only [Pool.compileItem] at h
    split at h
    · cases h
    · rename_i pool2 body heq
      obtain ⟨tsb, hext, hlen, hbody⟩ := Pool.compileItem_spec src b bsp _ _ _ _ heq
      simp only [List.length_append, List.length_cons, List.length_nil] at hbody
      have htsb : 0 < tsb.length := hlen ▸ astCount_pos b
      have hget : pool2.get? pool.length = some (Term.Abs 0) := by
        rw [hext, List.append_assoc, List.get?_append_right (le_refl _)]
        simp
      have hlen2 : pool2.length = pool.length + 1 + tsb.length := by
        simp [hext]
        omega
      have ih := Pool.compileItem_links src b bsp _ _ _ _ heq
      split at h
      · injection h with h
        injection h with h1 h2
        have hplen : pool'.length = pool2.length := by
          rw [← h1]
          simp
        rcases Nat.lt_or_ge i pool2.length with hlt | hge
        · rcases Nat.eq_or_lt_of_le hi with hieq | higt
          · -- `i` is the patched `Abs` placeholder itself
            have hgets : pool'.get? i = some (Term.Abs body) := by
              rw [← h1, ← hieq]
              apply List.get?_set_eq_of_lt
              omega
            constructor
            · intro l r hg
              rw [hgets] at hg
              cases hg
            · intro inr hg
              rw [hgets] at hg
              injection hg with hg
              injection hg with hg
              subst hg
              constructor
              · omega
              · rw [hplen]
                omega
          · -- `i` lies in the body's region; the patch does not touch it
            have hgets : pool'.get? i = pool2.get? i := by
              rw [← h1]
              apply List.get?_set_ne
              omega
            have hfacts := ih i (by simp; omega)
            constructor
            · intro l r hg
              rw [hgets] at hg
              exact hfacts.1 l r hg
            · intro inr hg
              rw [hgets] at hg
              rw [hplen]
              exact hfacts.2 inr hg
        · -- beyond the produced pool: nothing there
          have hnone : pool'.get? i = none := by
            rw [← h1]
            apply List.get?_len_le
            simp
            omega
          constructor
          · intro l r hg
            rw [hnone] at hg
            cases hg
          · intro inr hg
            rw [hnone] at hg
            cases hg
      · rename_i hne
        rw [hget] at hne
        exact absurd rfl (hne 0)
  | .App ⟨l, lsp⟩ ⟨r, rsp⟩, sp, scopes, pool, pool', idx => by
    intro h i hi
    simp only [Pool.compileItem] at h
    split at h
    · cases h
    · rename_i pool1 li heql
      split at h
      · cases h
      · rename_i pool2 ri heqr
        obtain ⟨tsl, hextl, hlenl, hli⟩ := Pool.compileItem_spec src l lsp _ _ _ _ heql
        obtain ⟨tsr, hextr, hlenr, hri⟩ := Pool.compileItem_spec src r rsp _ _ _ _ heqr
        have htsl : 0 < tsl.length := hlenl ▸ astCount_pos l
        have htsr : 0 < tsr.length := hlenr ▸ astCount_pos r
        have ihl := Pool.compileItem_links src l lsp _ _ _ _ heql
        have ihr := Pool.compileItem_links src r rsp _ _ _ _ heqr
        injection h with h
        injection h with h1 h2
        have hlen1 : pool1.length = pool.length + tsl.length := by simp [hextl]
        have hlen2 : pool2.length = pool1.length + tsr.length := by simp [hextr]
        have hplen : pool'.length = pool2.length + 1 := by
          rw [← h1]
          simp
        rcases Nat.lt_or_ge i pool1.length with hlt1 | hge1
        · -- left child's region, untouched afterwards
          have hgets : pool'.get? i = pool1.get? i := by
            rw [← h1, List.get?_append (by omega), hextr,
              List.get?_append hlt1]
          have hfacts := ihl i hi
          constructor
          · intro ll rr hg
            rw [hgets] at hg
            exact hfacts.1 ll rr hg
          · intro inr hg
            rw [hgets] at hg
            have hb := hfacts.2 inr hg
            exact ⟨hb.1, by omega⟩
        · rcases Nat.lt_or_ge i pool2.length with hlt2 | hge2
          · -- right child's region
            have hgets : pool'.get? i = pool2.get? i := by
              rw [← h1, List.get?_append (by omega)]
            have hfacts := ihr i hge1
            constructor
            · intro ll rr hg
              rw [hgets] at hg
              exact hfacts.1 ll rr hg
            · intro inr hg
              rw [hgets] at hg
              have hb := hfacts.2 inr hg
              exact ⟨hb.1, by omega⟩
          · rcases Nat.eq_or_lt_of_le hge2 with hieq | higt
            · -- the freshly appended `App` term
              have hgets : pool'.get? i = some (Term.App li ri) := by
                rw [← h1, ← hieq]
                apply List.get?_concat_length
              constructor
              · intro ll rr hg
                rw [hgets] at hg
                injection hg with hg
                injection hg with hg1 hg2
                subst hg1
                subst hg2
                omega
              · intro inr hg
                rw [hgets] at hg
                cases hg
            · have hnone : pool'.get? i = none := by
                rw [← h1]
                apply List.get?_len_le
                simp
                omega
              constructor
              · intro ll rr hg
                rw [hnone] at hg
                cases hg
              · intro inr hg
                rw [hnone] at hg
                cases hg

/-! ### Concrete pipeline values used by several claims -/

/-- The AST that `\ x . x` parses to. -/
def astId : Node := ⟨.Abs ⟨2, 1⟩ ⟨.Var, ⟨6, 1⟩⟩, ⟨2, 5⟩⟩

example : parseTop (lexOks (lex "\\ x . x")) = some (.ok astId) := by decide

/-! ### Claim theorems -/

/-- C1 (counterexample): lowering `\ x . x` appends the `Abs` term *before*
its body (the pool is `[Abs 1, Var 0]`), and `compile_node` returns
`TermIdx 1`, the index of the body's `Var` term — not the index 0 of the
`Abs` term itself.  This refutes "appends one `Term` after its children's
terms ... and returns the `TermIdx` of that appended `Term`" for `Abs`
nodes. -/
theorem claim_c1_counterexample :
    Pool.compileNode [] astId "\\ x . x".toList [] = .ok ([.Abs 1, .Var 0], 1) ∧
    [Term.Abs 1, Term.Var 0].get? 1 = some (.Var 0) ∧
    [Term.Abs 1, Term.Var 0].get? 0 = some (.Abs 1) := by
  decide

/-- C1 (amended): every visited node adds exactly one term to the pool
(one term per AST node) and `compile_node` returns `pool.len() - 1`, the
index of the last term of the node's region.  A `Var` or `App` node's own
term is that last term (emitted after its children), but an `Abs` node
pushes its term *first* (at the old `pool.len()`), before its body, and
the index it returns is the last term of its body's region instead. -/
theorem claim_c1_amended :
    ∀ (scopes : List (List Char)) (ast : Node) (src : List Char)
      (pool pool' : List Term) (idx : Nat),
      Pool.compileNode scopes ast src pool = .ok (pool', idx) →
      (∃ ts, pool' = pool ++ ts ∧ ts.length = nodeCount ast) ∧
      idx = pool'.length - 1 ∧
      (ast.item = .Var → idx = pool.length ∧ ∃ k, pool'.get? idx = some (Term.Var k)) ∧
      (∀ v b, ast.item = .Abs v b →
        (∃ inr, pool'.get? pool.length = some (Term.Abs inr)) ∧ pool.length < idx) ∧
      (∀ l r, ast.item = .App l r → ∃ li ri, pool'.get? idx = some (Term.App li ri)) := by
  intro scopes ast src pool pool' idx h
  obtain ⟨item, sp⟩ := ast
  obtain ⟨ts, hext, hcnt, hidx⟩ := Pool.compileItem_spec src item sp scopes pool pool' idx h
  have hts : 0 < ts.length := hcnt ▸ astCount_pos item
  refine ⟨⟨ts, hext, hcnt⟩, by rw [hext]; simp; omega, ?_, ?_, ?_⟩
  · rintro rfl
    simp only [Pool.compileNode, Pool.compileItem] at h
    split at h
    · rename_i id heq
      injection h with h
      injection h with h1 h2
      have hidx0 : idx = pool.length := by
        rw [← h2]
        simp
      refine ⟨hidx0, id, ?_⟩
      rw [← h1, hidx0, List.get?_concat_length]
    · cases h
  · intro v b hitem
    subst hitem
    simp only [Pool.compileNode, Pool.compileItem] at h
    split at h
    · cases h
    · rename_i pool2 body heq
      obtain ⟨tsb, hext2, hlen2, hbody⟩ := Pool.compileItem_spec src _ _ _ _ _ _ heq
      have hget : pool2.get? pool.length = some (Term.Abs 0) := by
        rw [hext2, List.append_assoc, List.get?_append_right (le_refl _)]
        simp
      split at h
      · injection h with h
        injection h with h1 h2
        constructor
        · refine ⟨body, ?_⟩
          rw [← h1]
          apply List.get?_set_eq_of_lt
          simp [hext2]
        · have habs : astCount (Ast.Abs v b) = astCount b.item + 1 := by
            cases b
            simp [astCount]
          have hbpos := astCount_pos b.item
          have hts2 : 2 ≤ ts.length := by
            rw [hcnt, habs]
            omega
          omega
      · rename_i hne
        rw [hget] at hne
        exact absurd rfl (hne 0)
  · intro l r hitem
    subst hitem
    simp only [Pool.compileNode, Pool.compileItem] at h
    split at h
    · cases h
    · rename_i pool1 li heql
      split at h
      · cases h
      · rename_i pool2 ri heqr
        injection h with h
        injection h with h1 h2
        refine ⟨li, ri, ?_⟩
        have hidx2 : idx = pool2.length := by
          rw [← h2]
          simp
        rw [← h1, hidx2, List.get?_concat_length]

/-- C1 (witness): the amended statement instantiated at the lowering of
`\ x . x` from the empty pool and scope stack. -/
theorem claim_c1_witness :
    (∃ ts, ([Term.Abs 1, Term.Var 0] : List Term) = [] ++ ts ∧ ts.length = nodeCount astId) ∧
    (1 : Nat) = ([Term.Abs 1, Term.Var 0] : List Term).length - 1 ∧
    (astId.item = .Var → (1 : Nat) = ([] : List Term).length ∧
      ∃ k, ([Term.Abs 1, Term.Var 0] : List Term).get? 1 = some (Term.Var k)) ∧
    (∀ v b, astId.item = .Abs v b →
      (∃ inr, ([Term.Abs 1, Term.Var 0] : List Term).get? ([] : List Term).length =
        some (Term.Abs inr)) ∧ ([] : List Term).length < 1) ∧
    (∀ l r, astId.item = .App l r →
      ∃ li ri, ([Term.Abs 1, Term.Var 0] : List Term).get? 1 = some (Term.App li ri)) :=
  claim_c1_amended [] astId "\\ x . x".toList [] [Term.Abs 1, Term.Var 0] 1 (by decide)

/-- C2 (counterexample): in the pool lowered from `\ x . x`, the `Abs`
term sits at position 0 with `inner = 1`: the referenced `TermIdx` is
*greater* than the referring position, and the last element (`Var 0`) is
the body, not the root `Abs`.  This refutes `Abs.inner < i` and "the last
element is the root". -/
theorem claim_c2_counterexample :
    Pool.compile astId "\\ x . x".toList = .ok [.Abs 1, .Var 0] ∧
    ([Term.Abs 1, Term.Var 0] : List Term).get? 0 = some (.Abs 1) ∧
    ¬ (1 < 0) ∧
    ([Term.Abs 1, Term.Var 0] : List Term).getLast? = some (.Var 0) := by
  decide

/-- C2 (amended): in every successfully lowered pool, an `App(l,r)` at
position `i` satisfies `l < i` and `r < i`, but an `Abs` at position `i`
satisfies `i < inner < pool.len()` (the body follows its binder); the
index returned by the root `compile_node` call (discarded by
`Pool::compile`) is that of the *last* element, which is the root's own
term only for `Var`/`App` roots. -/
theorem claim_c2_amended :
    ∀ (ast : Node) (src : List Char) (pl : List Term),
      Pool.compile ast src = .ok pl →
      (∀ i l r, pl.get? i = some (.App l r) → l < i ∧ r < i) ∧
      (∀ i inr, pl.get? i = some (.Abs inr) → i < inr ∧ inr < pl.length) ∧
      (∃ idx, Pool.compileNode [] ast src [] = .ok (pl, idx) ∧ idx = pl.length - 1) := by
  intro ast src pl h
  simp only [Pool.compile] at h
  cases hres : Pool.compileNode [] ast src [] with
  | error e =>
    rw [hres] at h
    cases h
  | ok p =>
    obtain ⟨pool', idx⟩ := p
    rw [hres] at h
    injection h with h
    change pool' = pl at h
    subst h
    obtain ⟨item, sp⟩ := ast
    have hlinks := Pool.compileItem_links src item sp [] [] pool' idx hres
    obtain ⟨ts, hext, hcnt, hidx⟩ := Pool.compileItem_spec src item sp [] [] pool' idx hres
    refine ⟨?_, ?_, idx, rfl, ?_⟩
    · intro i l r hg
      exact (hlinks i (Nat.zero_le i)).1 l r hg
    · intro i inr hg
      exact (hlinks i (Nat.zero_le i)).2 inr hg
    · rw [hidx, hext]
      simp

/-- C2 (witness): the amended statement instantiated at the lowering of
`\ x . x`, and the bounds it yields for the `Abs` term at position 0. -/
theorem claim_c2_witness :
    (∀ i l r, ([Term.Abs 1, Term.Var 0] : List Term).get? i = some (.App l r) → l < i ∧ r < i) ∧
    (0 : Nat) < 1 ∧ (1 : Nat) < ([Term.Abs 1, Term.Var 0] : List Term).length := by
  have h := claim_c2_amended astId "\\ x . x".toList [Term.Abs 1, Term.Var 0] (by decide)
  exact ⟨h.1, h.2.1 0 1 (by decide)⟩

/-- C3 (counterexample): the `Display` rendering of the pool lowered from
`\ x . x` is `"[ λ 1, ν 0]"` — the pool holds `[Abs 1, Var 0]`, not
`[Var 0, Abs 0]`, and the format has a space after `λ`/`ν` and no space
before the closing bracket — so it is not the spec's `"[ ν0, λ0 ]"`. -/
theorem claim_c3_counterexample :
    lowerStr "\\ x . x" = some (.ok [.Abs 1, .Var 0]) ∧
    Pool.display [.Abs 1, .Var 0] = "[ λ 1, ν 0]" ∧
    "[ λ 1, ν 0]" ≠ "[ ν0, λ0 ]" := by
  decide

/-- C3 (amended): the canonical textual form is `"[ "` followed by the
terms joined by `", "` and a closing `"]"` with no preceding space, each
term rendered `ν {k}`, `λ {inner}` or `{l} ⋅ {r}` with the shown spaces;
lowering `\ x . x` renders as `[ λ 1, ν 0]` and `\ x . \ y . x` as
`[ λ 2, λ 2, ν 1]`. -/
theorem claim_c3_amended :
    lowerStr "\\ x . x" = some (.ok [.Abs 1, .Var 0]) ∧
    Pool.display [.Abs 1, .Var 0] = "[ λ 1, ν 0]" ∧
    lowerStr "\\ x . \\ y . x" = some (.ok [.Abs 2, .Abs 2, .Var 1]) ∧
    Pool.display [.Abs 2, .Abs 2, .Var 1] = "[ λ 2, λ 2, ν 1]" ∧
    Pool.fmtTerm (.Var 0) = "ν 0" ∧
    Pool.fmtTerm (.Abs 2) = "λ 2" ∧
    Pool.fmtTerm (.App 1 3) = "1 ⋅ 3" := by
  decide

/-- C4 (code evaluation at the failing input): lowering `\ x . \ y . x`
yields the pool `[Abs 2, Abs 2, Var 1]`.  The root `Abs` at position 0
has `inner = 2`, skipping the inner `Abs` at position 1, so the only
path from the root to the `Var` passes one `Abs`: the `Var`'s de Bruijn
index `k = 1` is not `< d = 1` (and from the spec's "root = last element"
reading, `d = 0`).  The claim's closedness invariant `k < d` fails on the
pool the code builds. -/
theorem claim_c4_code_eval :
    lowerStr "\\ x . \\ y . x" = some (.ok [.Abs 2, .Abs 2, .Var 1]) ∧
    ([Term.Abs 2, Term.Abs 2, Term.Var 1] : List Term).get? 0 = some (.Abs 2) ∧
    ([Term.Abs 2, Term.Abs 2, Term.Var 1] : List Term).get? 2 = some (.Var 1) ∧
    ¬ (1 < 1) := by
  decide

/-- C5 (code evaluation at the failing input): the source consisting of
the single character `λ` (UTF-8 bytes `CE BB`) lexes to an
`InvalidCharSeq` error over its two bytes, not to a `Function` token,
because line 41 of `src/lexer.rs` spells the token literal with the
double-encoded bytes `C3 8E C2 BB` (the two characters `Î»`), which do
lex as `Function`. -/
theorem claim_c5_code_eval :
    lex "λ" = [.error (.InvalidCharSeq ⟨0, 2⟩)] ∧
    lex "Î»" = [.ok ⟨.Function, ⟨0, 4⟩⟩] := by
  decide

/-- C6: resolving a `Var` searches the scope stack from innermost (the
top of the `Vec`, i.e. the *end* of the list) to outermost; the de Bruijn
index `k` is the 0-based position from the top of the first binder whose
name equals the variable's source text, and no smaller position matches.
Consequently `\ x . \ x . x` lowers with the variable use resolved to the
inner binder: index 0. -/
theorem claim_c6 :
    (∀ (scopes : List (List Char)) (sp : Span) (src : List Char)
       (pool pool' : List Term) (i : Nat),
      Pool.compileNode scopes ⟨.Var, sp⟩ src pool = .ok (pool', i) →
      ∃ k, pool' = pool ++ [Term.Var k] ∧ i = pool.length ∧
        k < scopes.length ∧
        scopes.reverse.get? k = some (sliceBytes src sp) ∧
        (∀ j, j < k → scopes.reverse.get? j ≠ some (sliceBytes src sp))) ∧
    lowerStr "\\ x . \\ x . x" = some (.ok [.Abs 2, .Abs 2, .Var 0]) := by
  constructor
  · intro scopes sp src pool pool' i h
    simp only [Pool.compileNode, Pool.compileItem] at h
    split at h
    · rename_i id heq
      injection h with h
      injection h with h1 h2
      obtain ⟨hle, hlt, ⟨a, ha, hpa⟩, hfirst⟩ :=
        findIdx?_first (fun s => s = sliceBytes src sp) scopes.reverse 0 id heq
      simp only [Nat.sub_zero] at hlt ha hfirst
      refine ⟨id, h1.symm, ?_, ?_, ?_, ?_⟩
      · rw [← h2]
        simp
      · simpa using hlt
      · rw [ha]
        simp at hpa
        rw [hpa]
      · intro j hj hcontra
        have := hfirst j hj (sliceBytes src sp) hcontra
        simp at this
    · cases h
  · decide

/-- C6 (witness): the resolution statement instantiated at a `Var` for
`x` compiled under the scope stack `[y, x]` (innermost binder `x` on
top), which resolves to index 0. -/
theorem claim_c6_witness :
    ∃ k, ([Term.Var 0] : List Term) = [] ++ [Term.Var k] ∧ (0 : Nat) = ([] : List Term).length ∧
      k < ([['y'], ['x']] : List (List Char)).length ∧
      ([['y'], ['x']] : List (List Char)).reverse.get? k = some (sliceBytes "x".toList ⟨0, 1⟩) ∧
      (∀ j, j < k →
        ([['y'], ['x']] : List (List Char)).reverse.get? j ≠ some (sliceBytes "x".toList ⟨0, 1⟩)) :=
  claim_c6.1 [['y'], ['x']] ⟨0, 1⟩ "x".toList [] [Term.Var 0] 0 (by decide)

/-- C10: on the AST consisting of a single free variable `x` (which is
well-formed but closed by no binder), the alternative lowering
`Compiler::compile` hits `.expect("variable not defined")` on the failed
`definitions` lookup — a panic, modelled as `none` — whereas
`Pool::compile` returns the error value `UndeclaredVariable` at the
variable's span. -/
theorem claim_c10 :
    Compiler.compile ⟨.Var, ⟨0, 1⟩⟩ "x".toList = none ∧
    Pool.compile ⟨.Var, ⟨0, 1⟩⟩ "x".toList = .error (.UndeclaredVariable ⟨0, 1⟩) := by
  decide

/-! ### Parser error-span lemmas (for C8) -/

theorem peekTk_error {ts : List Token} {i : Nat} {e : PError}
    (h : peekTk ts i = .error e) : e = .UnexpectedEof (lastSpan ts) := by
  unfold peekTk at h
  split at h
  · cases h
  · injection h with h
    exact h.symm

theorem expectTk_eof {ts : List Token} {i : Nat} {tk : TkTy} {sp : Span} {j : Nat}
    (h : expectTk ts i tk = (.error (.UnexpectedEof sp), j)) : sp = lastSpan ts := by
  unfold expectTk at h
  split at h
  · rename_i e heq
    injection h with h1 h2
    injection h1 with h1
    subst h1
    have := peekTk_error heq
    exact PError.UnexpectedEof.inj this
  · rename_i t heq
    split at h
    · injection h with h1 h2
      cases h1
    · injection h with h1 h2
      injection h1 with h1
      cases h1

theorem collectParams_eof (fuel : Nat) :
    ∀ (ts : List Token) (i : Nat) (e : PError),
      collectParams fuel ts i = some (.error e) →
      e = .UnexpectedEof (lastSpan ts) := by
  induction fuel with
  | zero =>
    intro ts i e h
    cases h
  | succ fuel ih =>
    intro ts i e h
    simp only [collectParams] at h
    split at h
    · rename_i e2 heq
      injection h with h
      injection h with h
      subst h
      exact peekTk_error heq
    · rename_i t heq
      split at h
      · split at h
        · cases h
        · injection h with h
          injection h with h
          subst h
          exact ih ts (i + 1) _ (by rename_i heq2; exact heq2)
        · cases h
      · injection h with h
        cases h

/-- Every `UnexpectedEof` the parser produces carries `lastSpan ts`: the
only place the error is built is `Parser::peek`. -/
theorem parseStep_eof (fuel : Nat) :
    ∀ (call : PCall) (ts : List Token) (i : Nat) (r : Except PError Node) (j : Nat),
      parseStep fuel call ts i = some (r, j) →
      ∀ sp, r = .error (.UnexpectedEof sp) → sp = lastSpan ts := by
  induction fuel with
  | zero =>
    intro call ts i r j h
    cases h
  | succ fuel ih =>
    intro call ts i r j h sp hr
    subst hr
    match call with
    | .atom =>
      simp only [parseStep] at h
      split at h
      · rename_i e heq
        injection h with h
        injection h with h1 h2
        injection h1 with h1
        subst h1
        have := peekTk_error heq
        exact PError.UnexpectedEof.inj this
      · rename_i t heq
        split at h
        · exact ih .abs ts i _ j h sp rfl
        · split at h
          · split at h
            · cases h
            · rename_i e j2 heq2
              injection h with h
              injection h with h1 h2
              injection h1 with h1
              subst h1
              exact ih .app ts (i + 1) _ j2 heq2 sp rfl
            · rename_i a j2 heq2
              split at h
              · rename_i e j3 heq3
                injection h with h
                injection h with h1 h2
                injection h1 with h1
                subst h1
                exact expectTk_eof heq3
              · injection h with h
                injection h with h1 h2
                cases h1
          · split at h
            · rename_i e j2 heq2
              injection h with h
              injection h with h1 h2
              injection h1 with h1
              subst h1
              exact expectTk_eof heq2
            · injection h with h
              injection h with h1 h2
              cases h1
    | .abs =>
      simp only [parseStep] at h
      split at h
      · rename_i e j2 heq
        injection h with h
        injection h with h1 h2
        injection h1 with h1
        subst h1
        exact expectTk_eof heq
      · rename_i j2 heq
        split at h
        · cases h
        · rename_i e heq2
          injection h with h
          injection h with h1 h2
          injection h1 with h1
          subst h1
          have := collectParams_eof _ ts j2 _ heq2
          exact PError.UnexpectedEof.inj this
        · rename_i params j3 heq2
          split at h
          · rename_i e j4 heq3
            injection h with h
            injection h with h1 h2
            injection h1 with h1
            subst h1
            split at heq3
            · exact expectTk_eof heq3
            · simp at heq3
          · rename_i j4 heq3
            split at h
            · rename_i e j5 heq4
              injection h with h
              injection h with h1 h2
              injection h1 with h1
              subst h1
              exact expectTk_eof heq4
            · rename_i j5 heq4
              split at h
              · cases h
              · rename_i e j6 heq5
                injection h with h
                injection h with h1 h2
                injection h1 with h1
                subst h1
                exact ih .app ts j5 _ j6 heq5 sp rfl
              · rename_i body j6 heq5
                injection h with h
                injection h with h1 h2
                cases h1
    | .app =>
      simp only [parseStep] at h
      split at h
      · cases h
      · rename_i e j2 heq
        injection h with h
        injection h with h1 h2
        injection h1 with h1
        subst h1
        exact ih .atom ts i _ j2 heq sp rfl
      · rename_i l j2 heq
        exact ih (.appLoop l) ts j2 _ j h sp rfl
    | .appLoop l =>
      simp only [parseStep] at h
      split at h
      · cases h
      · rename_i e j2 heq
        injection h with h
        injection h with h1 h2
        cases h1
      · rename_i r2 j2 heq
        exact ih (.appLoop _) ts j2 _ j h sp rfl

/-- C8: whenever parsing fails with `UnexpectedEof`, the error's span is
the span of the last token of the input vector (`Parser::peek` is the
only construction site); on the empty token vector the parse fails with
`UnexpectedEof` at `(0,0)`. -/
theorem claim_c8 :
    (∀ (ts : List Token) (sp : Span),
      parseTop ts = some (.error (.UnexpectedEof sp)) → sp = lastSpan ts) ∧
    parseTop [] = some (.error (.UnexpectedEof ⟨0, 0⟩)) := by
  constructor
  · intro ts sp h
    simp only [parseTop, parseApp] at h
    cases hres : parseStep (parseFuel ts) .app ts 0 with
    | none =>
      rw [hres] at h
      cases h
    | some p =>
      obtain ⟨r, j⟩ := p
      rw [hres] at h
      injection h with h
      change r = _ at h
      exact parseStep_eof (parseFuel ts) .app ts 0 r j hres sp h
  · decide

/-- C8 (witness): parsing `(` alone fails with `UnexpectedEof` whose span
`(0,1)` is the span of the last (and only) token. -/
theorem claim_c8_witness :
    (⟨0, 1⟩ : Span) = lastSpan [⟨.LParen, ⟨0, 1⟩⟩] :=
  claim_c8.1 [⟨.LParen, ⟨0, 1⟩⟩] ⟨0, 1⟩ (by decide)

/-! ### One-step unfolding lemmas for the parser (for C7 and C9) -/

theorem parseStep_app_succ (f : Nat) (ts : List Token) (i : Nat) :
    parseStep (f+1) .app ts i =
      match parseStep f .atom ts i with
      | none => none
      | some (.error e, j) => some (.error e, j)
      | some (.ok l, j) => parseStep f (.appLoop l) ts j := rfl

theorem parseStep_atom_lparen (f : Nat) (sp : Span) (ts : List Token) (i : Nat)
    (h : ts.get? i = some ⟨.LParen, sp⟩) :
    parseStep (f+1) .atom ts i =
      match parseStep f .app ts (i+1) with
      | none => none
      | some (.error e, j) => some (.error e, j)
      | some (.ok a, j) =>
        match expectTk ts j .RParen with
        | (.error e, j2) => some (.error e, j2)
        | (.ok _, j2) => some (.ok a, j2) := by
  simp only [parseStep, peekTk, h]
  simp

theorem parseStep_atom_fn (f : Nat) (sp : Span) (ts : List Token) (i : Nat)
    (h : ts.get? i = some ⟨.Function, sp⟩) :
    parseStep (f+1) .atom ts i = parseStep f .abs ts i := by
  simp only [parseStep, peekTk, h]
  simp

theorem parseStep_atom_var (f : Nat) (sp : Span) (ts : List Token) (i : Nat)
    (h : ts.get? i = some ⟨.Variable, sp⟩) :
    parseStep (f+1) .atom ts i = some (.ok ⟨.Var, sp⟩, i + 1) := by
  simp only [parseStep, peekTk, expectTk, h]
  simp

theorem parseStep_atom_eof (f : Nat) (ts : List Token) (i : Nat)
    (h : ts.get? i = none) :
    parseStep (f+1) .atom ts i = some (.error (.UnexpectedEof (lastSpan ts)), i) := by
  simp only [parseStep, peekTk, h]

theorem parseStep_appLoop_stop (f : Nat) (l : Node) (ts : List Token) (i : Nat)
    (e : PError) (j : Nat) (h : parseStep f .atom ts i = some (.error e, j)) :
    parseStep (f+1) (.appLoop l) ts i = some (.ok l, j) := by
  simp only [parseStep, h]

theorem parseStep_abs_fn (f : Nat) (sp : Span) (ts : List Token) (i : Nat)
    (h : ts.get? i = some ⟨.Function, sp⟩) :
    parseStep (f+1) .abs ts i =
      match collectParams (ts.length + 1) ts (i+1) with
      | none => none
      | some (.error e) => some (.error e, i+1)
      | some (.ok (params, j1)) =>
        match (if params.isEmpty then expectTk ts j1 .Variable else (.ok (), j1)) with
        | (.error e, j2) => some (.error e, j2)
        | (.ok _, j2) =>
          match expectTk ts j2 .Abstraction with
          | (.error e, j3) => some (.error e, j3)
          | (.ok _, j3) =>
            match parseStep f .app ts j3 with
            | none => none
            | some (.error e, j4) => some (.error e, j4)
            | some (.ok body, j4) =>
              some (.ok (params.foldr
                (fun sp2 acc => ⟨Ast.Abs sp2 acc, over sp2 acc.at_⟩) body), j4) := by
  simp only [parseStep, expectTk, peekTk, h]
  simp

theorem collectParams_var (f : Nat) (ts : List Token) (i : Nat) (v : Span)
    (h : ts.get? i = some ⟨.Variable, v⟩) :
    collectParams (f+1) ts i =
      match collectParams f ts (i+1) with
      | none => none
      | some (.error e) => some (.error e)
      | some (.ok (ps, j)) => some (.ok (v :: ps, j)) := by
  simp only [collectParams, peekTk, h]
  simp

theorem collectParams_stop (f : Nat) (ts : List Token) (i : Nat) (t : Token)
    (h : ts.get? i = some t) (hv : t.item ≠ .Variable) :
    collectParams (f+1) ts i = some (.ok ([], i)) := by
  simp only [collectParams, peekTk, h]
  simp
  simp [hv]

/-- C7 (counterexample): the unclosed parenthesized group in `x ( y`
occurs as the *second* atom of the application, where `parse_app`'s
extension loop swallows the error: parsing succeeds with just the `Var`
for `x`, returning no error at all. -/
theorem claim_c7_counterexample :
    parseTop (lexOks (lex "x ( y")) = some (.ok ⟨.Var, ⟨0, 1⟩⟩) := by
  decide

/-- C7 (amended): when the unclosed group is the *first* atom of the
parse — an `LParen` opening the token stream whose inner `app` parse
succeeds, with the next token missing or not an `RParen` — the parser
fails with `UnexpectedToken{exp: RParen}` or `UnexpectedEof`.  (When the
group occurs in a later atom, `parse_app`'s loop swallows the failure.) -/
theorem claim_c7_amended :
    ∀ (sp : Span) (rest : List Token) (b : Node) (j : Nat),
      parseApp (3 * rest.length + 9) (⟨.LParen, sp⟩ :: rest) 1 = some (.ok b, j) →
      (∀ t, (⟨.LParen, sp⟩ :: rest : List Token).get? j = some t → t.item ≠ .RParen) →
      ∃ e, parseTop (⟨.LParen, sp⟩ :: rest) = some (.error e) ∧
        ((∃ s2, e = .UnexpectedEof s2) ∨ (∃ tk s2, e = .UnexpectedToken .RParen tk s2)) := by
  intro sp rest b j h1 h2
  unfold parseApp at h1
  have hexp : ∃ e, expectTk (⟨.LParen, sp⟩ :: rest) j .RParen = (.error e, j) ∧
      ((∃ s2, e = .UnexpectedEof s2) ∨ (∃ tk s2, e = .UnexpectedToken .RParen tk s2)) := by
    cases hg : (⟨.LParen, sp⟩ :: rest : List Token).get? j with
    | none =>
      refine ⟨.UnexpectedEof (lastSpan (⟨.LParen, sp⟩ :: rest)), ?_, Or.inl ⟨_, rfl⟩⟩
      unfold expectTk peekTk
      rw [hg]
    | some t =>
      have hne := h2 t hg
      refine ⟨.UnexpectedToken .RParen t.item t.at_, ?_, Or.inr ⟨_, _, rfl⟩⟩
      unfold expectTk peekTk
      rw [hg]
      simp [hne]
  obtain ⟨e, he, hkind⟩ := hexp
  have hatom : parseStep ((3 * rest.length + 9) + 1) .atom (⟨.LParen, sp⟩ :: rest) 0 =
      some (.error e, j) := by
    rw [parseStep_atom_lparen (3 * rest.length + 9) sp (⟨.LParen, sp⟩ :: rest) 0 (by rfl), h1]
    show (match expectTk (⟨.LParen, sp⟩ :: rest) j .RParen with
      | (Except.error e2, j2) => some (Except.error e2, j2)
      | (Except.ok _, j2) => (some (Except.ok b, j2) : PRes)) = some (.error e, j)
    rw [he]
  have happ : parseStep ((3 * rest.length + 10) + 1) .app (⟨.LParen, sp⟩ :: rest) 0 =
      some (.error e, j) := by
    rw [parseStep_app_succ]
    rw [show (3 * rest.length + 10) = (3 * rest.length + 9) + 1 by omega]
    rw [hatom]
  refine ⟨e, ?_, hkind⟩
  simp only [parseTop, parseApp]
  rw [show parseFuel (⟨.LParen, sp⟩ :: rest) = (3 * rest.length + 10) + 1 by
    simp [parseFuel]
    omega]
  rw [happ]
  rfl

/-- C7 (witness): the amended statement at the token stream of `( x`:
the inner `app` parses `x` and the stream ends, so parsing fails with
`UnexpectedEof`. -/
theorem claim_c7_witness :
    ∃ e, parseTop [⟨.LParen, ⟨0, 1⟩⟩, ⟨.Variable, ⟨2, 1⟩⟩] = some (.error e) ∧
      ((∃ s2, e = .UnexpectedEof s2) ∨
       (∃ tk s2, e = .UnexpectedToken .RParen tk s2)) :=
  claim_c7_amended ⟨0, 1⟩ [⟨.Variable, ⟨2, 1⟩⟩] ⟨.Var, ⟨2, 1⟩⟩ 2 (by decide)
    (fun t h => by cases h)

/-! ### Observational similarity of spanned ASTs (for C9) -/

/-- Two spanned ASTs of the same shape whose binder and variable
occurrences slice to the same identifier text in their respective
sources.  Spans themselves may differ: this is the observational
identity of C9 ("identical at the AST level"). -/
inductive SimilarAst (s1 s2 : List Char) : Node → Node → Prop where
  | var (sp1 sp2 : Span) : sliceBytes s1 sp1 = sliceBytes s2 sp2 →
      SimilarAst s1 s2 ⟨.Var, sp1⟩ ⟨.Var, sp2⟩
  | abs (v1 v2 : Span) (b1 b2 : Node) (sp1 sp2 : Span) :
      sliceBytes s1 v1 = sliceBytes s2 v2 → SimilarAst s1 s2 b1 b2 →
      SimilarAst s1 s2 ⟨.Abs v1 b1, sp1⟩ ⟨.Abs v2 b2, sp2⟩
  | app (l1 r1 l2 r2 : Node) (sp1 sp2 : Span) :
      SimilarAst s1 s2 l1 l2 → SimilarAst s1 s2 r1 r2 →
      SimilarAst s1 s2 ⟨.App l1 r1, sp1⟩ ⟨.App l2 r2, sp2⟩

/-- Pool-level agreement of two lowering results: equal on success, and
jointly failing on failure (the error spans may differ). -/
def exceptAgree : Except PoolError (List Term × Nat) → Except PoolError (List Term × Nat) → Prop
  | .ok a, .ok b => a = b
  | .error _, .error _ => True
  | _, _ => False

/-- Lowering depends only on the AST shape and the sliced identifier
texts: similar ASTs compile, from equal scope stacks and pools, to equal
pools and indices (or both fail). -/
theorem similar_compile {s1 s2 : List Char} :
    ∀ {a1 a2 : Node}, SimilarAst s1 s2 a1 a2 →
    ∀ (scopes : List (List Char)) (pool : List Term),
      exceptAgree (Pool.compileNode scopes a1 s1 pool) (Pool.compileNode scopes a2 s2 pool) := by
  intro a1 a2 h
  induction h with
  | var sp1 sp2 hs =>
    intro scopes pool
    simp only [Pool.compileNode, Pool.compileItem]
    rw [hs]
    cases hf : scopes.reverse.findIdx? (fun s => s = sliceBytes s2 sp2) with
    | none => simp [hf, exceptAgree]
    | some id => simp [hf, exceptAgree]
  | abs v1 v2 b1 b2 sp1 sp2 hs hb ih =>
    intro scopes pool
    obtain ⟨bi1, bsp1⟩ := b1
    obtain ⟨bi2, bsp2⟩ := b2
    simp only [Pool.compileNode, Pool.compileItem]
    rw [hs]
    have hrec := ih (scopes ++ [sliceBytes s2 v2]) (pool ++ [Term.Abs 0])
    simp only [Pool.compileNode] at hrec
    cases hc1 : Pool.compileItem s1 (scopes ++ [sliceBytes s2 v2]) bi1 bsp1 (pool ++ [Term.Abs 0]) with
    | error e1 =>
      cases hc2 : Pool.compileItem s2 (scopes ++ [sliceBytes s2 v2]) bi2 bsp2 (pool ++ [Term.Abs 0]) with
      | error e2 => simp [hc1, hc2, exceptAgree]
      | ok p2 =>
        rw [hc1, hc2] at hrec
        simp [exceptAgree] at hrec
    | ok p1 =>
      cases hc2 : Pool.compileItem s2 (scopes ++ [sliceBytes s2 v2]) bi2 bsp2 (pool ++ [Term.Abs 0]) with
      | error e2 =>
        rw [hc1, hc2] at hrec
        simp [exceptAgree] at hrec
      | ok p2 =>
        rw [hc1, hc2] at hrec
        simp only [exceptAgree] at hrec
        subst hrec
        obtain ⟨pool2, body⟩ := p1
        simp [hc1, hc2, exceptAgree]
  | app l1 r1 l2 r2 sp1 sp2 hl hr ihl ihr =>
    intro scopes pool
    obtain ⟨li1, lsp1⟩ := l1
    obtain ⟨ri1, rsp1⟩ := r1
    obtain ⟨li2, lsp2⟩ := l2
    obtain ⟨ri2, rsp2⟩ := r2
    simp only [Pool.compileNode, Pool.compileItem]
    have hrecl := ihl scopes pool
    simp only [Pool.compileNode] at hrecl
    cases hcl1 : Pool.compileItem s1 scopes li1 lsp1 pool with
    | error e1 =>
      cases hcl2 : Pool.compileItem s2 scopes li2 lsp2 pool with
      | error e2 => simp [hcl1, hcl2, exceptAgree]
      | ok p2 =>
        rw [hcl1, hcl2] at hrecl
        simp [exceptAgree] at hrecl
    | ok p1 =>
      cases hcl2 : Pool.compileItem s2 scopes li2 lsp2 pool with
      | error e2 =>
        rw [hcl1, hcl2] at hrecl
        simp [exceptAgree] at hrecl
      | ok p2 =>
        rw [hcl1, hcl2] at hrecl
        simp only [exceptAgree] at hrecl
        subst hrecl
        obtain ⟨pool1, li⟩ := p1
        have hrecr := ihr scopes pool1
        simp only [Pool.compileNode] at hrecr
        cases hcr1 : Pool.compileItem s1 scopes ri1 rsp1 pool1 with
        | error e1 =>
          cases hcr2 : Pool.compileItem s2 scopes ri2 rsp2 pool1 with
          | error e2 => simp [hcl1, hcl2, hcr1, hcr2, exceptAgree]
          | ok q2 =>
            rw [hcr1, hcr2] at hrecr
            simp [exceptAgree] at hrecr
        | ok q1 =>
          cases hcr2 : Pool.compileItem s2 scopes ri2 rsp2 pool1 with
          | error e2 =>
            rw [hcr1, hcr2] at hrecr
            simp [exceptAgree] at hrecr
          | ok q2 =>
            rw [hcr1, hcr2] at hrecr
            simp only [exceptAgree] at hrecr
            subst hrecr
            obtain ⟨pool2, ri⟩ := q1
            simp [hcl1, hcl2, hcr1, hcr2, exceptAgree]

/-- C9: parsing `\ x y . body` and parsing `\ x . \ y . body` (token
streams with the two header shapes, whose body tokens parse to similar
ASTs consuming the rest of the input) succeed with the desugared curried
forms `Abs(x, Abs(y, body))`; the two ASTs are observationally identical
(same shape, same identifier texts) and lower to literally equal pools. -/
theorem claim_c9 :
    ∀ (q1 vx1 vy1 a1 : Span) (rest1 : List Token) (s1 : List Char) (b1 : Node)
      (q2 vx2 a2 q3 vy2 a3 : Span) (rest2 : List Token) (s2 : List Char) (b2 : Node),
      parseApp (3 * rest1.length + 17)
        (⟨.Function, q1⟩ :: ⟨.Variable, vx1⟩ :: ⟨.Variable, vy1⟩ :: ⟨.Abstraction, a1⟩ :: rest1)
        4 = some (.ok b1, 4 + rest1.length) →
      parseApp (3 * rest2.length + 20)
        (⟨.Function, q2⟩ :: ⟨.Variable, vx2⟩ :: ⟨.Abstraction, a2⟩ ::
         ⟨.Function, q3⟩ :: ⟨.Variable, vy2⟩ :: ⟨.Abstraction, a3⟩ :: rest2)
        6 = some (.ok b2, 6 + rest2.length) →
      SimilarAst s1 s2 b1 b2 →
      sliceBytes s1 vx1 = sliceBytes s2 vx2 →
      sliceBytes s1 vy1 = sliceBytes s2 vy2 →
      parseTop (⟨.Function, q1⟩ :: ⟨.Variable, vx1⟩ :: ⟨.Variable, vy1⟩ ::
          ⟨.Abstraction, a1⟩ :: rest1) =
        some (.ok ⟨.Abs vx1 ⟨.Abs vy1 b1, over vy1 b1.at_⟩, over vx1 (over vy1 b1.at_)⟩) ∧
      parseTop (⟨.Function, q2⟩ :: ⟨.Variable, vx2⟩ :: ⟨.Abstraction, a2⟩ ::
          ⟨.Function, q3⟩ :: ⟨.Variable, vy2⟩ :: ⟨.Abstraction, a3⟩ :: rest2) =
        some (.ok ⟨.Abs vx2 ⟨.Abs vy2 b2, over vy2 b2.at_⟩, over vx2 (over vy2 b2.at_)⟩) ∧
      SimilarAst s1 s2
        ⟨.Abs vx1 ⟨.Abs vy1 b1, over vy1 b1.at_⟩, over vx1 (over vy1 b1.at_)⟩
        ⟨.Abs vx2 ⟨.Abs vy2 b2, over vy2 b2.at_⟩, over vx2 (over vy2 b2.at_)⟩ ∧
      (∀ p, Pool.compile
          ⟨.Abs vx1 ⟨.Abs vy1 b1, over vy1 b1.at_⟩, over vx1 (over vy1 b1.at_)⟩ s1 = .ok p →
        Pool.compile
          ⟨.Abs vx2 ⟨.Abs vy2 b2, over vy2 b2.at_⟩, over vx2 (over vy2 b2.at_)⟩ s2 = .ok p) := by
  intro q1 vx1 vy1 a1 rest1 s1 b1 q2 vx2 a2 q3 vy2 a3 rest2 s2 b2 h1 h2 hsim hvx hvy
  unfold parseApp at h1 h2
  have hsimA : SimilarAst s1 s2
      ⟨.Abs vx1 ⟨.Abs vy1 b1, over vy1 b1.at_⟩, over vx1 (over vy1 b1.at_)⟩
      ⟨.Abs vx2 ⟨.Abs vy2 b2, over vy2 b2.at_⟩, over vx2 (over vy2 b2.at_)⟩ :=
    SimilarAst.abs vx1 vx2 _ _ _ _ hvx (SimilarAst.abs vy1 vy2 b1 b2 _ _ hvy hsim)
  -- trace for `\ x y . body`
  have hcp1 : collectParams
      ((⟨.Function, q1⟩ :: ⟨.Variable, vx1⟩ :: ⟨.Variable, vy1⟩ ::
        ⟨.Abstraction, a1⟩ :: rest1 : List Token).length + 1)
      (⟨.Function, q1⟩ :: ⟨.Variable, vx1⟩ :: ⟨.Variable, vy1⟩ ::
        ⟨.Abstraction, a1⟩ :: rest1) 1 = some (.ok ([vx1, vy1], 3)) := by
    rw [collectParams_var _ _ 1 vx1 (by rfl)]
    rw [show (⟨.Function, q1⟩ :: ⟨.Variable, vx1⟩ :: ⟨.Variable, vy1⟩ ::
        ⟨.Abstraction, a1⟩ :: rest1 : List Token).length = (rest1.length + 3) + 1 by
      simp only [List.length_cons]]
    rw [collectParams_var _ _ 2 vy1 (by rfl)]
    rw [show rest1.length + 3 = (rest1.length + 2) + 1 by omega]
    rw [collectParams_stop _ _ 3 ⟨.Abstraction, a1⟩ (by rfl) (by simp)]
  have habs1 : parseStep ((3 * rest1.length + 17) + 1) .abs
      (⟨.Function, q1⟩ :: ⟨.Variable, vx1⟩ :: ⟨.Variable, vy1⟩ ::
        ⟨.Abstraction, a1⟩ :: rest1) 0 =
      some (.ok ⟨.Abs vx1 ⟨.Abs vy1 b1, over vy1 b1.at_⟩, over vx1 (over vy1 b1.at_)⟩,
        4 + rest1.length) := by
    rw [parseStep_abs_fn _ q1 _ 0 (by rfl)]
    rw [hcp1]
    show (match parseStep (3 * rest1.length + 17) .app
        (⟨.Function, q1⟩ :: ⟨.Variable, vx1⟩ :: ⟨.Variable, vy1⟩ ::
          ⟨.Abstraction, a1⟩ :: rest1) 4 with
      | none => none
      | some (Except.error e, j4) => some (Except.error e, j4)
      | some (Except.ok body, j4) =>
        (some (Except.ok ([vx1, vy1].foldr
          (fun sp2 acc => ⟨Ast.Abs sp2 acc, over sp2 acc.at_⟩) body), j4) : PRes)) = _
    rw [h1]
    rfl
  have hatom1 : parseStep ((3 * rest1.length + 18) + 1) .atom
      (⟨.Function, q1⟩ :: ⟨.Variable, vx1⟩ :: ⟨.Variable, vy1⟩ ::
        ⟨.Abstraction, a1⟩ :: rest1) 0 =
      some (.ok ⟨.Abs vx1 ⟨.Abs vy1 b1, over vy1 b1.at_⟩, over vx1 (over vy1 b1.at_)⟩,
        4 + rest1.length) := by
    rw [parseStep_atom_fn _ q1 _ 0 (by rfl)]
    rw [show 3 * rest1.length + 18 = (3 * rest1.length + 17) + 1 by omega]
    exact habs1
  have heof1 : (⟨.Function, q1⟩ :: ⟨.Variable, vx1⟩ :: ⟨.Variable, vy1⟩ ::
      ⟨.Abstraction, a1⟩ :: rest1 : List Token).get? (4 + rest1.length) = none :=
    List.get?_len_le (by simp only [List.length_cons]; omega)
  have hloop1 : parseStep ((3 * rest1.length + 18) + 1)
      (.appLoop ⟨.Abs vx1 ⟨.Abs vy1 b1, over vy1 b1.at_⟩, over vx1 (over vy1 b1.at_)⟩)
      (⟨.Function, q1⟩ :: ⟨.Variable, vx1⟩ :: ⟨.Variable, vy1⟩ ::
        ⟨.Abstraction, a1⟩ :: rest1) (4 + rest1.length) =
      some (.ok ⟨.Abs vx1 ⟨.Abs vy1 b1, over vy1 b1.at_⟩, over vx1 (over vy1 b1.at_)⟩,
        4 + rest1.length) := by
    apply parseStep_appLoop_stop
    rw [show 3 * rest1.length + 18 = (3 * rest1.length + 17) + 1 by omega]
    exact parseStep_atom_eof _ _ _ heof1
  have happ1 : parseStep ((3 * rest1.length + 19) + 1) .app
      (⟨.Function, q1⟩ :: ⟨.Variable, vx1⟩ :: ⟨.Variable, vy1⟩ ::
        ⟨.Abstraction, a1⟩ :: rest1) 0 =
      some (.ok ⟨.Abs vx1 ⟨.Abs vy1 b1, over vy1 b1.at_⟩, over vx1 (over vy1 b1.at_)⟩,
        4 + rest1.length) := by
    rw [parseStep_app_succ]
    rw [show 3 * rest1.length + 19 = (3 * rest1.length + 18) + 1 by omega]
    rw [hatom1]
    exact hloop1
  have htop1 : parseTop (⟨.Function, q1⟩ :: ⟨.Variable, vx1⟩ :: ⟨.Variable, vy1⟩ ::
      ⟨.Abstraction, a1⟩ :: rest1) =
      some (.ok ⟨.Abs vx1 ⟨.Abs vy1 b1, over vy1 b1.at_⟩, over vx1 (over vy1 b1.at_)⟩) := by
    simp only [parseTop, parseApp]
    rw [show parseFuel (⟨.Function, q1⟩ :: ⟨.Variable, vx1⟩ :: ⟨.Variable, vy1⟩ ::
        ⟨.Abstraction, a1⟩ :: rest1) = (3 * rest1.length + 19) + 1 by
      simp only [parseFuel, List.length_cons]; omega]
    rw [happ1]
    rfl
  -- trace for `\ x . \ y . body`
  have hcp2o : collectParams
      ((⟨.Function, q2⟩ :: ⟨.Variable, vx2⟩ :: ⟨.Abstraction, a2⟩ ::
        ⟨.Function, q3⟩ :: ⟨.Variable, vy2⟩ :: ⟨.Abstraction, a3⟩ :: rest2 : List Token).length + 1)
      (⟨.Function, q2⟩ :: ⟨.Variable, vx2⟩ :: ⟨.Abstraction, a2⟩ ::
        ⟨.Function, q3⟩ :: ⟨.Variable, vy2⟩ :: ⟨.Abstraction, a3⟩ :: rest2) 1 =
      some (.ok ([vx2], 2)) := by
    rw [collectParams_var _ _ 1 vx2 (by rfl)]
    rw [show (⟨.Function, q2⟩ :: ⟨.Variable, vx2⟩ :: ⟨.Abstraction, a2⟩ ::
        ⟨.Function, q3⟩ :: ⟨.Variable, vy2⟩ :: ⟨.Abstraction, a3⟩ :: rest2 : List Token).length =
        (rest2.length + 5) + 1 by simp only [List.length_cons]]
    rw [collectParams_stop _ _ 2 ⟨.Abstraction, a2⟩ (by rfl) (by simp)]
  have hcp2i : collectParams
      ((⟨.Function, q2⟩ :: ⟨.Variable, vx2⟩ :: ⟨.Abstraction, a2⟩ ::
        ⟨.Function, q3⟩ :: ⟨.Variable, vy2⟩ :: ⟨.Abstraction, a3⟩ :: rest2 : List Token).length + 1)
      (⟨.Function, q2⟩ :: ⟨.Variable, vx2⟩ :: ⟨.Abstraction, a2⟩ ::
        ⟨.Function, q3⟩ :: ⟨.Variable, vy2⟩ :: ⟨.Abstraction, a3⟩ :: rest2) 4 =
      some (.ok ([vy2], 5)) := by
    rw [collectParams_var _ _ 4 vy2 (by rfl)]
    rw [show (⟨.Function, q2⟩ :: ⟨.Variable, vx2⟩ :: ⟨.Abstraction, a2⟩ ::
        ⟨.Function, q3⟩ :: ⟨.Variable, vy2⟩ :: ⟨.Abstraction, a3⟩ :: rest2 : List Token).length =
        (rest2.length + 5) + 1 by simp only [List.length_cons]]
    rw [collectParams_stop _ _ 5 ⟨.Abstraction, a3⟩ (by rfl) (by simp)]
  have habs2i : parseStep ((3 * rest2.length + 20) + 1) .abs
      (⟨.Function, q2⟩ :: ⟨.Variable, vx2⟩ :: ⟨.Abstraction, a2⟩ ::
        ⟨.Function, q3⟩ :: ⟨.Variable, vy2⟩ :: ⟨.Abstraction, a3⟩ :: rest2) 3 =
      some (.ok ⟨.Abs vy2 b2, over vy2 b2.at_⟩, 6 + rest2.length) := by
    rw [parseStep_abs_fn _ q3 _ 3 (by rfl)]
    rw [hcp2i]
    show (match parseStep (3 * rest2.length + 20) .app
        (⟨.Function, q2⟩ :: ⟨.Variable, vx2⟩ :: ⟨.Abstraction, a2⟩ ::
          ⟨.Function, q3⟩ :: ⟨.Variable, vy2⟩ :: ⟨.Abstraction, a3⟩ :: rest2) 6 with
      | none => none
      | some (Except.error e, j4) => some (Except.error e, j4)
      | some (Except.ok body, j4) =>
        (some (Except.ok ([vy2].foldr
          (fun sp2 acc => ⟨Ast.Abs sp2 acc, over sp2 acc.at_⟩) body), j4) : PRes)) = _
    rw [h2]
    rfl
  have hatom2i : parseStep ((3 * rest2.length + 21) + 1) .atom
      (⟨.Function, q2⟩ :: ⟨.Variable, vx2⟩ :: ⟨.Abstraction, a2⟩ ::
        ⟨.Function, q3⟩ :: ⟨.Variable, vy2⟩ :: ⟨.Abstraction, a3⟩ :: rest2) 3 =
      some (.ok ⟨.Abs vy2 b2, over vy2 b2.at_⟩, 6 + rest2.length) := by
    rw [parseStep_atom_fn _ q3 _ 3 (by rfl)]
    rw [show 3 * rest2.length + 21 = (3 * rest2.length + 20) + 1 by omega]
    exact habs2i
  have heof2 : (⟨.Function, q2⟩ :: ⟨.Variable, vx2⟩ :: ⟨.Abstraction, a2⟩ ::
      ⟨.Function, q3⟩ :: ⟨.Variable, vy2⟩ :: ⟨.Abstraction, a3⟩ :: rest2 : List Token).get?
        (6 + rest2.length) = none :=
    List.get?_len_le (by simp only [List.length_cons]; omega)
  have hloop2i : parseStep ((3 * rest2.length + 21) + 1)
      (.appLoop ⟨.Abs vy2 b2, over vy2 b2.at_⟩)
      (⟨.Function, q2⟩ :: ⟨.Variable, vx2⟩ :: ⟨.Abstraction, a2⟩ ::
        ⟨.Function, q3⟩ :: ⟨.Variable, vy2⟩ :: ⟨.Abstraction, a3⟩ :: rest2) (6 + rest2.length) =
      some (.ok ⟨.Abs vy2 b2, over vy2 b2.at_⟩, 6 + rest2.length) := by
    apply parseStep_appLoop_stop
    rw [show 3 * rest2.length + 21 = (3 * rest2.length + 20) + 1 by omega]
    exact parseStep_atom_eof _ _ _ heof2
  have happ2i : parseStep ((3 * rest2.length + 22) + 1) .app
      (⟨.Function, q2⟩ :: ⟨.Variable, vx2⟩ :: ⟨.Abstraction, a2⟩ ::
        ⟨.Function, q3⟩ :: ⟨.Variable, vy2⟩ :: ⟨.Abstraction, a3⟩ :: rest2) 3 =
      some (.ok ⟨.Abs vy2 b2, over vy2 b2.at_⟩, 6 + rest2.length) := by
    rw [parseStep_app_succ]
    rw [show 3 * rest2.length + 22 = (3 * rest2.length + 21) + 1 by omega]
    rw [hatom2i]
    exact hloop2i
  have habs2o : parseStep ((3 * rest2.length + 23) + 1) .abs
      (⟨.Function, q2⟩ :: ⟨.Variable, vx2⟩ :: ⟨.Abstraction, a2⟩ ::
        ⟨.Function, q3⟩ :: ⟨.Variable, vy2⟩ :: ⟨.Abstraction, a3⟩ :: rest2) 0 =
      some (.ok ⟨.Abs vx2 ⟨.Abs vy2 b2, over vy2 b2.at_⟩, over vx2 (over vy2 b2.at_)⟩,
        6 + rest2.length) := by
    rw [parseStep_abs_fn _ q2 _ 0 (by rfl)]
    rw [hcp2o]
    show (match parseStep (3 * rest2.length + 23) .app
        (⟨.Function, q2⟩ :: ⟨.Variable, vx2⟩ :: ⟨.Abstraction, a2⟩ ::
          ⟨.Function, q3⟩ :: ⟨.Variable, vy2⟩ :: ⟨.Abstraction, a3⟩ :: rest2) 3 with
      | none => none
      | some (Except.error e, j4) => some (Except.error e, j4)
      | some (Except.ok body, j4) =>
        (some (Except.ok ([vx2].foldr
          (fun sp2 acc => ⟨Ast.Abs sp2 acc, over sp2 acc.at_⟩) body), j4) : PRes)) = _
    rw [show 3 * rest2.length + 23 = (3 * rest2.length + 22) + 1 by omega]
    rw [happ2i]
    rfl
  have hatom2o : parseStep ((3 * rest2.length + 24) + 1) .atom
      (⟨.Function, q2⟩ :: ⟨.Variable, vx2⟩ :: ⟨.Abstraction, a2⟩ ::
        ⟨.Function, q3⟩ :: ⟨.Variable, vy2⟩ :: ⟨.Abstraction, a3⟩ :: rest2) 0 =
      some (.ok ⟨.Abs vx2 ⟨.Abs vy2 b2, over vy2 b2.at_⟩, over vx2 (over vy2 b2.at_)⟩,
        6 + rest2.length) := by
    rw [parseStep_atom_fn _ q2 _ 0 (by rfl)]
    rw [show 3 * rest2.length + 24 = (3 * rest2.length + 23) + 1 by omega]
    exact habs2o
  have hloop2o : parseStep ((3 * rest2.length + 24) + 1)
      (.appLoop ⟨.Abs vx2 ⟨.Abs vy2 b2, over vy2 b2.at_⟩, over vx2 (over vy2 b2.at_)⟩)
      (⟨.Function, q2⟩ :: ⟨.Variable, vx2⟩ :: ⟨.Abstraction, a2⟩ ::
        ⟨.Function, q3⟩ :: ⟨.Variable, vy2⟩ :: ⟨.Abstraction, a3⟩ :: rest2) (6 + rest2.length) =
      some (.ok ⟨.Abs vx2 ⟨.Abs vy2 b2, over vy2 b2.at_⟩, over vx2 (over vy2 b2.at_)⟩,
        6 + rest2.length) := by
    apply parseStep_appLoop_stop
    rw [show 3 * rest2.length + 24 = (3 * rest2.length + 23) + 1 by omega]
    exact parseStep_atom_eof _ _ _ heof2
  have happ2o : parseStep ((3 * rest2.length + 25) + 1) .app
      (⟨.Function, q2⟩ :: ⟨.Variable, vx2⟩ :: ⟨.Abstraction, a2⟩ ::
        ⟨.Function, q3⟩ :: ⟨.Variable, vy2⟩ :: ⟨.Abstraction, a3⟩ :: rest2) 0 =
      some (.ok ⟨.Abs vx2 ⟨.Abs vy2 b2, over vy2 b2.at_⟩, over vx2 (over vy2 b2.at_)⟩,
        6 + rest2.length) := by
    rw [parseStep_app_succ]
    rw [show 3 * rest2.length + 25 = (3 * rest2.length + 24) + 1 by omega]
    rw [hatom2o]
    exact hloop2o
  have htop2 : parseTop (⟨.Function, q2⟩ :: ⟨.Variable, vx2⟩ :: ⟨.Abstraction, a2⟩ ::
      ⟨.Function, q3⟩ :: ⟨.Variable, vy2⟩ :: ⟨.Abstraction, a3⟩ :: rest2) =
      some (.ok ⟨.Abs vx2 ⟨.Abs vy2 b2, over vy2 b2.at_⟩, over vx2 (over vy2 b2.at_)⟩) := by
    simp only [parseTop, parseApp]
    rw [show parseFuel (⟨.Function, q2⟩ :: ⟨.Variable, vx2⟩ :: ⟨.Abstraction, a2⟩ ::
        ⟨.Function, q3⟩ :: ⟨.Variable, vy2⟩ :: ⟨.Abstraction, a3⟩ :: rest2) =
        (3 * rest2.length + 25) + 1 by simp only [parseFuel, List.length_cons]; omega]
    rw [happ2o]
    rfl
  refine ⟨htop1, htop2, hsimA, ?_⟩
  intro p hp
  have hag := similar_compile hsimA [] []
  simp only [Pool.compile] at hp ⊢
  cases hc1 : Pool.compileNode []
      ⟨.Abs vx1 ⟨.Abs vy1 b1, over vy1 b1.at_⟩, over vx1 (over vy1 b1.at_)⟩ s1 [] with
  | error e =>
    rw [hc1] at hp
    cases hp
  | ok pr =>
    rw [hc1] at hp
    injection hp with hp
    revert hag
    cases hc2 : Pool.compileNode []
        ⟨.Abs vx2 ⟨.Abs vy2 b2, over vy2 b2.at_⟩, over vx2 (over vy2 b2.at_)⟩ s2 [] with
    | error e =>
      intro hag
      rw [hc1] at hag
      simp [exceptAgree] at hag
    | ok pr2 =>
      intro hag
      rw [hc1] at hag
      simp only [exceptAgree] at hag
      subst hag
      rw [← hp]
      rfl

/-- C9 (witness): the statement at the token streams of `\ x y . x` and
`\ x . \ y . x` — both parse to the curried `Abs(x, Abs(y, x))` and lower
to the same pool. -/
theorem claim_c9_witness :
    parseTop [⟨.Function, ⟨0, 1⟩⟩, ⟨.Variable, ⟨2, 1⟩⟩, ⟨.Variable, ⟨4, 1⟩⟩,
        ⟨.Abstraction, ⟨6, 1⟩⟩, ⟨.Variable, ⟨8, 1⟩⟩] =
      some (.ok ⟨.Abs ⟨2, 1⟩ ⟨.Abs ⟨4, 1⟩ ⟨.Var, ⟨8, 1⟩⟩, over ⟨4, 1⟩ ⟨8, 1⟩⟩,
        over ⟨2, 1⟩ (over ⟨4, 1⟩ ⟨8, 1⟩)⟩) ∧
    parseTop [⟨.Function, ⟨0, 1⟩⟩, ⟨.Variable, ⟨2, 1⟩⟩, ⟨.Abstraction, ⟨4, 1⟩⟩,
        ⟨.Function, ⟨6, 1⟩⟩, ⟨.Variable, ⟨8, 1⟩⟩, ⟨.Abstraction, ⟨10, 1⟩⟩,
        ⟨.Variable, ⟨12, 1⟩⟩] =
      some (.ok ⟨.Abs ⟨2, 1⟩ ⟨.Abs ⟨8, 1⟩ ⟨.Var, ⟨12, 1⟩⟩, over ⟨8, 1⟩ ⟨12, 1⟩⟩,
        over ⟨2, 1⟩ (over ⟨8, 1⟩ ⟨12, 1⟩)⟩) ∧
    SimilarAst "\\ x y . x".toList "\\ x . \\ y . x".toList
      ⟨.Abs ⟨2, 1⟩ ⟨.Abs ⟨4, 1⟩ ⟨.Var, ⟨8, 1⟩⟩, over ⟨4, 1⟩ ⟨8, 1⟩⟩,
        over ⟨2, 1⟩ (over ⟨4, 1⟩ ⟨8, 1⟩)⟩
      ⟨.Abs ⟨2, 1⟩ ⟨.Abs ⟨8, 1⟩ ⟨.Var, ⟨12, 1⟩⟩, over ⟨8, 1⟩ ⟨12, 1⟩⟩,
        over ⟨2, 1⟩ (over ⟨8, 1⟩ ⟨12, 1⟩)⟩ ∧
    (∀ p, Pool.compile
        ⟨.Abs ⟨2, 1⟩ ⟨.Abs ⟨4, 1⟩ ⟨.Var, ⟨8, 1⟩⟩, over ⟨4, 1⟩ ⟨8, 1⟩⟩,
          over ⟨2, 1⟩ (over ⟨4, 1⟩ ⟨8, 1⟩)⟩ "\\ x y . x".toList = .ok p →
      Pool.compile
        ⟨.Abs ⟨2, 1⟩ ⟨.Abs ⟨8, 1⟩ ⟨.Var, ⟨12, 1⟩⟩, over ⟨8, 1⟩ ⟨12, 1⟩⟩,
          over ⟨2, 1⟩ (over ⟨8, 1⟩ ⟨12, 1⟩)⟩ "\\ x . \\ y . x".toList = .ok p) :=
  claim_c9 ⟨0, 1⟩ ⟨2, 1⟩ ⟨4, 1⟩ ⟨6, 1⟩ [⟨.Variable, ⟨8, 1⟩⟩] "\\ x y . x".toList
    ⟨.Var, ⟨8, 1⟩⟩ ⟨0, 1⟩ ⟨2, 1⟩ ⟨4, 1⟩ ⟨6, 1⟩ ⟨8, 1⟩ ⟨10, 1⟩
    [⟨.Variable, ⟨12, 1⟩⟩] "\\ x . \\ y . x".toList ⟨.Var, ⟨12, 1⟩⟩
    (by decide) (by decide) (SimilarAst.var ⟨8, 1⟩ ⟨12, 1⟩ (by decide))
    (by decide) (by decide)
